import Mathlib

/-!
Verification of the folve on-demand audio-convolution core.

Shallow embedding of the C++ source: the process-wide open-file map
(`create_filter` / `close_filter`), the refcounted handler cache, the
dynamic stat-size estimation of `SndFileFilter::Stat`, the end-of-file
skip shortcut of `SndFileFilter::Read` (with the `(int)` truncation),
the FLAC header splice of `SndFileFilter::CopyFlacHeader`, the
`SetOutputSoundfile` write gating, the pass-through handler's error
returns, the output-format selection, and the peak observation of
`SoundProcessor::Process`.

Machine integers are modelled as `Nat` / `Int` with explicit wrap-around
where the C code truncates (the `(int)` cast in `Read`).  C `float` /
`double` arithmetic in the size estimation is modelled by exact integer
arithmetic; sound samples are modelled as exact rationals.
-/

namespace Folve

/-! ## The open-file map: `create_filter` / `close_filter`

`open_files_` is a `std::map<std::string, FileFilter*>`; we model it as a
function from virtual path to the (identifier of the) filter stored for
that path, if any. -/

/-- A `FileFilter*` handed out by `create_filter`, identified by a number. -/
abbrev FilterId := ℕ

/-- The process-wide `open_files_` map. -/
abbrev FileFilterMap := String → Option FilterId

/-- The body of `create_filter`: `open_files_[fs_path] = filter`
(insert-or-overwrite under the mutex). -/
def create_filter (open_files : FileFilterMap) (fs_path : String)
    (filter : FilterId) : FileFilterMap :=
  fun p => if p = fs_path then some filter else open_files p

/-- The map mutation of `close_filter`: erase the entry for `fs_path`
only when it is present and identical to the filter being closed
(`found != open_files_.end() && found->second == file_filter`). -/
def close_filter (open_files : FileFilterMap) (fs_path : String)
    (filter : FilterId) : FileFilterMap :=
  fun p =>
    if p = fs_path then
      if open_files fs_path = some filter then none else open_files fs_path
    else open_files p

/-- One call on a fixed virtual path: a `create_filter` call returning a
fresh filter, or a `close_filter` call on a previously returned filter. -/
inductive FilterEv where
  | create (id : FilterId) : FilterEv
  | close (id : FilterId) : FilterEv
deriving DecidableEq

/-- Apply one event to the map, all calls happening on path `path`. -/
def applyFilterEv (path : String) (m : FileFilterMap) : FilterEv → FileFilterMap
  | .create i => create_filter m path i
  | .close i => close_filter m path i

/-- Run a sequence of `create_filter` / `close_filter` calls on `path`. -/
def runFilterMap (m : FileFilterMap) (path : String) (evs : List FilterEv) :
    FileFilterMap :=
  evs.foldl (applyFilterEv path) m

/-- The entry for the single path being traced, as an `Option`:
projection of the map semantics to one key. -/
def filterStep (s : Option FilterId) : FilterEv → Option FilterId
  | .create i => some i
  | .close i => if s = some i then none else s

/-- Fold `filterStep` over a call trace. -/
def filterRun (s : Option FilterId) (evs : List FilterEv) : Option FilterId :=
  evs.foldl filterStep s

/-- The filter identifier mentioned by an event. -/
def idOf : FilterEv → FilterId
  | .create i => i
  | .close i => i

/-- All identifiers mentioned in a trace. -/
def evIds (evs : List FilterEv) : List FilterId := evs.map idOf

/-- Whether an event is a `create_filter` call. -/
def isCreateEv : FilterEv → Bool
  | .create _ => true
  | .close _ => false

/-- A well-formed trace of `N` opens and `N` matching closes on one path:
every filter is created at most once, is closed exactly as often as it is
created, and within every initial segment of the trace a filter has been
closed no more often than created (a close always follows its create). -/
def WFTrace (evs : List FilterEv) : Prop :=
  (∀ i ∈ evIds evs, evs.count (FilterEv.create i) ≤ 1) ∧
  (∀ i ∈ evIds evs, evs.count (FilterEv.close i) = evs.count (FilterEv.create i)) ∧
  (∀ i ∈ evIds evs, ∀ n < evs.length + 1,
    (evs.take n).count (FilterEv.close i) ≤ (evs.take n).count (FilterEv.create i))

instance (evs : List FilterEv) : Decidable (WFTrace evs) := by
  unfold WFTrace; infer_instance

/-! ## The refcounted handler cache

Modelled from the spec: `FileHandlerCache` (its implementation,
`file-handler-cache.cc`, is not part of the excerpted sources; only its
declaration in `folve-filesystem.h` is).  The cache maps a virtual path
to a live handler with a reference count: an open of a path that is
already present increments the refcount, an open of an absent path
inserts an entry with refcount 1, a close decrements the refcount and
removes the entry when it drops to zero.  We trace the entry of one
fixed path, `none` meaning "no entry reachable from the map". -/

/-- An open or close of the traced path against the handler cache. -/
inductive CacheEv where
  | copen : CacheEv
  | cclose : CacheEv
deriving DecidableEq

/-- Modelled from the spec: one cache operation on the traced path's
entry (`none` = absent, `some n` = present with refcount `n`). -/
def cacheStep : Option ℕ → CacheEv → Option ℕ
  | none, .copen => some 1
  | some n, .copen => some (n + 1)
  | none, .cclose => none
  | some n, .cclose => if n ≤ 1 then none else some (n - 1)

/-- Run a trace of cache opens and closes, starting from no entry. -/
def cacheRun (tr : List CacheEv) : Option ℕ :=
  tr.foldl cacheStep none

/-- Number of opens in a cache trace. -/
def opensCount (tr : List CacheEv) : ℕ := tr.count CacheEv.copen

/-- Number of closes in a cache trace. -/
def closesCount (tr : List CacheEv) : ℕ := tr.count CacheEv.cclose

/-! ## Dynamic size reporting: `SndFileFilter::Stat` -/

/-- `start_estimating_size_ = 0.4 * file_stat_.st_size`; the `double`
multiplication is modelled exactly as `2 * size / 5`. -/
def start_estimating_size (original_size : ℤ) : ℤ := 2 * original_size / 5

/-- One call of `SndFileFilter::Stat`, returning the updated
`file_stat_.st_size`.  `fileSize` is `output_buffer_->FileSize()` and
`frames_done` is `total_frames_ - input_frames_left_`.  The C code
computes `estimated_end = 1.0 * total_frames_ / frames_done` in `float`
and truncates `estimated_end * FileSize()` back to `off_t`; this is
modelled by the exact integer quotient. -/
def statStep (total_frames start_estimating st_size fileSize frames_done : ℤ) : ℤ :=
  if start_estimating < fileSize then
    if 0 < frames_done then
      let new_size := total_frames * fileSize / frames_done + 16384
      if st_size < new_size then new_size else st_size
    else st_size
  else st_size

/-- A sequence of `Stat` calls, each observing a buffer size and a
frames-done count. -/
def statRun (total_frames start_estimating st_size : ℤ)
    (calls : List (ℤ × ℤ)) : ℤ :=
  calls.foldl (fun st c => statStep total_frames start_estimating st c.1 c.2) st_size

/-! ## The read shortcut: `SndFileFilter::Read` -/

/-- The C `(int)` conversion: wrap to the signed 32-bit range. -/
def intCast32 (x : ℤ) : ℤ := (x + 2 ^ 31) % 2 ^ 32 - 2 ^ 31

/-- What a `SndFileFilter::Read` call does, abstracting the conversion
buffer: return `-1`, serve zero bytes without advancing processing, or
delegate to `output_buffer_->Read` (which pulls audio on demand). -/
inductive ReadOutcome where
  | rerror : ReadOutcome
  | skip (ret : ℕ) (buf : List ℕ) : ReadOutcome
  | delegate : ReadOutcome
deriving DecidableEq

/-- `SndFileFilter::Read(buf, size, offset)`: error check, then the
end-of-file skip shortcut `output_buffer_->FileSize() < offset &&
(int)(offset + size) == file_stat_.st_size` (which `memset`s the buffer
to zero and returns `size`), else delegation to the conversion buffer. -/
def sndFileRead (error : Bool) (fileSize offset : ℤ) (size : ℕ)
    (st_size : ℤ) : ReadOutcome :=
  if error then .rerror
  else if fileSize < offset ∧ intCast32 (offset + size) = st_size then
    .skip size (List.replicate size 0)
  else .delegate

/-! ## FLAC header splicing: `SndFileFilter::CopyFlacHeader` -/

/-- A FLAC metadata block: last-block flag, 7-bit type, payload. -/
structure MetaBlock where
  last : Bool
  btype : ℕ
  payload : List ℕ
deriving DecidableEq

/-- The 4 header bytes of a metadata block: last-flag bit and 7-bit type
in the first byte, then the 24-bit big-endian payload length. -/
def headerBytes (b : MetaBlock) : List ℕ :=
  [(if b.last then 128 else 0) + b.btype,
   b.payload.length / 65536,
   b.payload.length / 256 % 256,
   b.payload.length % 256]

/-- A serialized metadata block: header bytes then payload. -/
def serializeBlock (b : MetaBlock) : List ℕ := headerBytes b ++ b.payload

/-- A serialized metadata chain. -/
def serializeBlocks : List MetaBlock → List ℕ
  | [] => []
  | b :: bs => serializeBlock b ++ serializeBlocks bs

/-- The trailing empty PADDING block (type 1) with the last-block flag,
written when the dropped SEEKTABLE was the last block. -/
def padBlock : MetaBlock := ⟨true, 1, []⟩

/-- How one iteration of the `CopyFlacHeader` loop transforms one input
block: STREAMINFO (type 0, 34 bytes) is copied with the 16 MD5 bytes
zeroed, a SEEKTABLE (type 3) is dropped (a final one is replaced by the
padding block), everything else is copied verbatim. -/
def spliceBlock (b : MetaBlock) : List MetaBlock :=
  if b.btype = 0 ∧ b.payload.length = 34 then
    [{ b with payload := b.payload.take 18 ++ List.replicate 16 0 }]
  else if b.btype = 3 then
    (if b.last then [padBlock] else [])
  else [b]

/-- The whole spliced chain. -/
def spliceChain : List MetaBlock → List MetaBlock
  | [] => []
  | b :: bs => spliceBlock b ++ spliceChain bs

/-- The last-block flags of a chain are well-formed: the chain is
nonempty and exactly its final block carries the flag. -/
def lastFlagsOk : List MetaBlock → Bool
  | [] => false
  | [b] => b.last
  | b :: bs => !b.last && lastFlagsOk bs

/-- The block-reading loop of `CopyFlacHeader`, on the raw input file:
at `pos`, `pread` 4 header bytes (stop if fewer than 4 are available),
decode last-flag (`header[0] & 0x80`), type (`header[0] & 0x7F`) and the
24-bit length; emit the transformed block; on the last block additionally
emit the padding block if it was a SEEKTABLE, else continue after the
payload.  Bytes are `unsigned char`, so the flag test `header[0] & 0x80`
is modelled as `128 ≤ h0`.  The loop advances `pos` by at least 4 each
iteration; `fuel` bounds the number of iterations and is chosen large
enough by `copyFlacHeader` below. -/
def flacBlocksF (file : List ℕ) : ℕ → ℕ → List ℕ
  | 0, _ => []
  | fuel + 1, pos =>
    if pos + 4 ≤ file.length then
      let hdr := (file.drop pos).take 4
      let h0 := hdr.getD 0 0
      let btype := h0 % 128
      let byte_len := hdr.getD 1 0 * 65536 + hdr.getD 2 0 * 256 + hdr.getD 3 0
      let body :=
        if btype = 0 ∧ byte_len = 34 then
          hdr ++ (file.drop (pos + 4)).take (byte_len - 16) ++ List.replicate 16 0
        else if btype = 3 then []
        else hdr ++ (file.drop (pos + 4)).take byte_len
      if 128 ≤ h0 then
        body ++ (if btype = 3 then [129, 0, 0, 0] else [])
      else
        body ++ flacBlocksF file fuel (pos + 4 + byte_len)
    else []

/-- `CopyFlacHeader`: append the literal `fLaC` marker, then walk the
metadata chain starting at offset 4. -/
def copyFlacHeader (file : List ℕ) : List ℕ :=
  [102, 76, 97, 67] ++ flacBlocksF file (file.length + 1) 4

/-! ## The conversion buffer and `SetOutputSoundfile`

Modelled from the spec: `ConversionBuffer` (its implementation,
`conversion-buffer.cc`, is not part of the excerpted sources): an
append-only byte log, a flag gating writes arriving through the sndfile
encoder callback, and a one-shot `HeaderFinished` mark recording where
the audio payload starts. -/

structure ConvBuffer where
  buffer : List ℕ
  sndfile_writes_enabled : Bool
  header_end : Option ℕ

/-- Modelled from the spec: `Append` writes unconditionally. -/
def bufAppend (b : ConvBuffer) (bytes : List ℕ) : ConvBuffer :=
  { b with buffer := b.buffer ++ bytes }

/-- Modelled from the spec: the encoder write callback appends only if
`sndfile_writes_enabled`, else drops silently. -/
def sndfileWriteCallback (b : ConvBuffer) (bytes : List ℕ) : ConvBuffer :=
  if b.sndfile_writes_enabled then bufAppend b bytes else b

/-- Modelled from the spec: `set_sndfile_writes_enabled`. -/
def setWritesEnabled (b : ConvBuffer) (v : Bool) : ConvBuffer :=
  { b with sndfile_writes_enabled := v }

/-- Modelled from the spec: `HeaderFinished` marks that the audio
payload starts at the current size. -/
def headerFinished (b : ConvBuffer) : ConvBuffer :=
  { b with header_end := some b.buffer.length }

/-- The FLAC path of `SndFileFilter::SetOutputSoundfile`: disable
encoder writes, splice the copied FLAC header in via `Append`, flush the
encoder's own header through the (disabled) write callback
(`sf_command(snd_out_, SFC_UPDATE_HEADER_NOW, ...)`), re-enable encoder
writes, mark `HeaderFinished`. -/
def setOutputSoundfileFlac (b : ConvBuffer) (spliced encoder_header : List ℕ) :
    ConvBuffer :=
  headerFinished
    (setWritesEnabled
      (sndfileWriteCallback
        (bufAppend (setWritesEnabled b false) spliced)
        encoder_header)
      true)

/-! ## The pass-through handler -/

/-- `PassThroughFilter::Read`: `result = pread(...)`; `result == -1 ?
-errno : result`. -/
def ptRead (pread_result errno : ℤ) : ℤ :=
  if pread_result = -1 then -errno else pread_result

/-- `PassThroughFilter::Stat`: `return fstat(filedes_, st);` — the raw
`fstat` return value is passed through unchanged. -/
def ptStat (fstat_result : ℤ) : ℤ := fstat_result

/-- `PassThroughFilter::Close`: `close(filedes_) == -1 ? -errno : 0`. -/
def ptClose (close_result errno : ℤ) : ℤ :=
  if close_result = -1 then -errno else 0

/-! ## Peak observation in `SoundProcessor::Process` -/

/-- The observation fold of `SoundProcessor::Process` over the convolved
output samples: `const float out_abs = source[j]; if (out_abs >
max_out_value_observed_) max_out_value_observed_ = out_abs;`.  Samples
are modelled as exact rationals. -/
def observePeak (samples : List ℚ) (max_out_value_observed : ℚ) : ℚ :=
  samples.foldl (fun m s => if m < s then s else m) max_out_value_observed

/-! ## Output format selection in the `SndFileFilter` constructor -/

def SF_FORMAT_SUBMASK : ℕ := 0xFFFF
def SF_FORMAT_TYPEMASK : ℕ := 0x0FFF0000
def SF_FORMAT_WAV : ℕ := 0x010000
def SF_FORMAT_FLAC : ℕ := 0x170000
def SF_FORMAT_OGG : ℕ := 0x200000
def SF_FORMAT_PCM_16 : ℕ := 0x0002
def SF_FORMAT_FLOAT : ℕ := 0x0006
def SF_ENDIAN_CPU : ℕ := 0x30000000

/-- The `out_info.format` computation of the `SndFileFilter`
constructor: OGG input is re-coded to FLAC with 16-bit PCM; WAV input
with a non-PCM16 subtype becomes WAV float at CPU endianness; everything
else keeps the input format. -/
def chooseOutputFormat (in_format : ℕ) : ℕ :=
  if in_format &&& SF_FORMAT_TYPEMASK = SF_FORMAT_OGG then
    SF_FORMAT_FLAC ||| SF_FORMAT_PCM_16
  else if in_format &&& SF_FORMAT_TYPEMASK = SF_FORMAT_WAV
      ∧ in_format &&& SF_FORMAT_SUBMASK ≠ SF_FORMAT_PCM_16 then
    SF_FORMAT_WAV ||| SF_FORMAT_FLOAT ||| SF_ENDIAN_CPU
  else in_format

/-! # Theorems -/

/-! ## Helper lemmas for the open-file map -/

/-- The traced path's entry evolves by `filterStep`. -/
theorem runFilterMap_apply (evs : List FilterEv) :
    ∀ (m : FileFilterMap) (path : String),
      runFilterMap m path evs path = filterRun (m path) evs := by
  induction evs with
  | nil => intro m path; rfl
  | cons e t ih =>
    intro m path
    have hstep : (applyFilterEv path m e) path = filterStep (m path) e := by
      cases e with
      | create i => simp [applyFilterEv, create_filter, filterStep]
      | close i => simp [applyFilterEv, close_filter, filterStep]
    have h1 : runFilterMap m path (e :: t) = runFilterMap (applyFilterEv path m e) path t := rfl
    rw [h1, ih (applyFilterEv path m e) path, hstep]
    rfl

/-- With no `create_filter` call in the trace, an absent entry stays
absent. -/
theorem filterRun_no_create (evs : List FilterEv)
    (h : ∀ j, FilterEv.create j ∉ evs) : filterRun none evs = none := by
  induction evs with
  | nil => rfl
  | cons e t ih =>
    cases e with
    | create j => exact absurd (List.mem_cons_self _ _) (h j)
    | close j =>
      have hstep : filterStep none (FilterEv.close j) = none := by
        simp [filterStep]
      have h1 : filterRun none (FilterEv.close j :: t)
          = filterRun (filterStep none (FilterEv.close j)) t := rfl
      rw [h1, hstep]
      exact ih fun i hi => h i (List.mem_cons_of_mem _ hi)

/-- If the stored filter's close is still pending in a create-free tail,
the entry is gone at the end of the tail. -/
theorem filterRun_drain (i : FilterId) (r : List FilterEv)
    (hc : FilterEv.close i ∈ r) (hnc : ∀ j, FilterEv.create j ∉ r) :
    filterRun (some i) r = none := by
  induction r with
  | nil => cases hc
  | cons e t ih =>
    cases e with
    | create j => exact absurd (List.mem_cons_self _ _) (hnc j)
    | close j =>
      have h1 : filterRun (some i) (FilterEv.close j :: t)
          = filterRun (filterStep (some i) (FilterEv.close j)) t := rfl
      by_cases hji : i = j
      · subst hji
        have hstep : filterStep (some i) (FilterEv.close i) = none := by
          simp [filterStep]
        rw [h1, hstep]
        exact filterRun_no_create t fun k hk => hnc k (List.mem_cons_of_mem _ hk)
      · have hstep : filterStep (some i) (FilterEv.close j) = some i := by
          simp [filterStep]
          intro heq
          exact absurd heq hji
        rw [h1, hstep]
        refine ih ?_ fun k hk => hnc k (List.mem_cons_of_mem _ hk)
        rcases List.mem_cons.mp hc with h | h
        · cases h; exact absurd rfl hji
        · exact h

/-- Splitting a list at the last element satisfying a predicate. -/
theorem exists_split_last {α : Type} (p : α → Bool) (l : List α)
    (h : ∃ a ∈ l, p a = true) :
    ∃ l₁ a l₂, l = l₁ ++ a :: l₂ ∧ p a = true ∧ ∀ b ∈ l₂, p b = false := by
  induction l with
  | nil => obtain ⟨a, ha, _⟩ := h; cases ha
  | cons x t ih =>
    by_cases hex : ∃ a ∈ t, p a = true
    · obtain ⟨l₁, a, l₂, heq, hpa, hrest⟩ := ih hex
      exact ⟨x :: l₁, a, l₂, by rw [heq]; rfl, hpa, hrest⟩
    · obtain ⟨a, ha, hpa⟩ := h
      rcases List.mem_cons.mp ha with rfl | ha'
      · refine ⟨[], a, t, rfl, hpa, fun b hb => ?_⟩
        by_contra hb'
        exact hex ⟨b, hb, by revert hb'; cases p b <;> simp⟩
      · exact absurd ⟨a, ha', hpa⟩ hex

/-- A created identifier is mentioned in the trace. -/
theorem mem_evIds_of_create {i : FilterId} {evs : List FilterEv}
    (h : FilterEv.create i ∈ evs) : i ∈ evIds evs :=
  List.mem_map.mpr ⟨FilterEv.create i, h, rfl⟩

/-- On a well-formed trace the single-path entry ends up absent. -/
theorem filterRun_wf (evs : List FilterEv) (hwf : WFTrace evs) :
    filterRun none evs = none := by
  by_cases hc : ∃ e ∈ evs, isCreateEv e = true
  · obtain ⟨l₁, a, l₂, heq, hpa, hrest⟩ := exists_split_last isCreateEv evs hc
    cases a with
    | close j => simp [isCreateEv] at hpa
    | create i =>
      obtain ⟨hc1, hc2, hc3⟩ := hwf
      have hmem : FilterEv.create i ∈ evs := by
        rw [heq]; exact List.mem_append_right _ (List.mem_cons_self _ _)
      have hid : i ∈ evIds evs := mem_evIds_of_create hmem
      have hcount1 : evs.count (FilterEv.create i) ≤ 1 := hc1 i hid
      have hsplit : evs.count (FilterEv.create i)
          = l₁.count (FilterEv.create i) + (l₂.count (FilterEv.create i) + 1) := by
        rw [heq]
        simp [List.count_append, List.count_cons]
      have hl1 : l₁.count (FilterEv.create i) = 0 := by omega
      have hcc : evs.count (FilterEv.close i) = evs.count (FilterEv.create i) :=
        hc2 i hid
      have hclmem : FilterEv.close i ∈ evs := by
        have : 0 < evs.count (FilterEv.close i) := by omega
        exact List.count_pos_iff.mp this
      have hnotl1 : FilterEv.close i ∉ l₁ := by
        intro hmeml1
        have Hn := hc3 i hid l₁.length (by rw [heq]; simp; omega)
        rw [heq, List.take_left] at Hn
        have : 0 < l₁.count (FilterEv.close i) := List.count_pos_iff.mpr hmeml1
        omega
      have hcll2 : FilterEv.close i ∈ l₂ := by
        rw [heq] at hclmem
        rcases List.mem_append.mp hclmem with h | h
        · exact absurd h hnotl1
        · rcases List.mem_cons.mp h with h | h
          · cases h
          · exact h
      have hncl2 : ∀ j, FilterEv.create j ∉ l₂ := by
        intro j hj
        have := hrest _ hj
        simp [isCreateEv] at this
      have hfold : filterRun none evs
          = filterRun (filterStep (filterRun none l₁) (FilterEv.create i)) l₂ := by
        rw [heq]
        simp [filterRun, List.foldl_append]
      rw [hfold]
      have : filterStep (filterRun none l₁) (FilterEv.create i) = some i := rfl
      rw [this]
      exact filterRun_drain i l₂ hcll2 hncl2
  · apply filterRun_no_create
    intro j hj
    exact hc ⟨FilterEv.create j, hj, rfl⟩

/-! ## Helper lemma for the refcounted cache -/

/-- Characterisation of the cache entry: with closes never outrunning
opens, the entry holds exactly `opens - closes` references, and is
absent exactly when they balance. -/
theorem cacheRun_char (tr : List CacheEv)
    (h : ∀ n ≤ tr.length, closesCount (tr.take n) ≤ opensCount (tr.take n)) :
    cacheRun tr = if opensCount tr = closesCount tr then none
      else some (opensCount tr - closesCount tr) := by
  induction tr using List.reverseRecOn with
  | nil => simp [cacheRun, opensCount, closesCount]
  | append_singleton t e ih =>
    have ht : ∀ n ≤ t.length, closesCount (t.take n) ≤ opensCount (t.take n) := by
      intro n hn
      have hx := h n (by simp; omega)
      rwa [List.take_append_of_le_length hn] at hx
    have hrun : cacheRun (t ++ [e]) = cacheStep (cacheRun t) e := by
      simp [cacheRun, List.foldl_append]
    have hle : closesCount t ≤ opensCount t := by
      have hx := ht t.length (le_refl _)
      rwa [List.take_length] at hx
    have hfull := h (t ++ [e]).length (le_refl _)
    rw [List.take_length] at hfull
    rw [hrun, ih ht]
    cases e with
    | copen =>
      have ho : opensCount (t ++ [CacheEv.copen]) = opensCount t + 1 := by
        simp [opensCount, List.count_append]
      have hcl : closesCount (t ++ [CacheEv.copen]) = closesCount t := by
        simp [closesCount, List.count_append]
      rw [ho, hcl]
      by_cases he : opensCount t = closesCount t
      · rw [if_pos he, if_neg (by omega)]
        simp [cacheStep]
        omega
      · rw [if_neg he, if_neg (by omega)]
        simp [cacheStep]
        omega
    | cclose =>
      have ho : opensCount (t ++ [CacheEv.cclose]) = opensCount t := by
        simp [opensCount, List.count_append]
      have hcl : closesCount (t ++ [CacheEv.cclose]) = closesCount t + 1 := by
        simp [closesCount, List.count_append]
      rw [ho, hcl] at hfull ⊢
      have hne : opensCount t ≠ closesCount t := by omega
      rw [if_neg hne]
      simp only [cacheStep]
      split_ifs with h1 h2 <;> first
        | rfl
        | omega

/-- C1: after `N` `create_filter` and `N` matching `close_filter` calls
on the same virtual path, the open-file map contains no entry for that
path; in the refcounted handler cache, at every intermediate point the
entry's reference count equals opens minus closes, and an entry is
reachable from the map exactly while that count is positive. -/
theorem C1_cache_invariant (m : FileFilterMap) (path : String)
    (evs : List FilterEv) (hm : m path = none) (hwf : WFTrace evs)
    (tr : List CacheEv)
    (htr : ∀ n ≤ tr.length, closesCount (tr.take n) ≤ opensCount (tr.take n)) :
    (runFilterMap m path evs path = none) ∧
    (∀ n ≤ tr.length, cacheRun (tr.take n)
      = if opensCount (tr.take n) = closesCount (tr.take n) then none
        else some (opensCount (tr.take n) - closesCount (tr.take n))) ∧
    (∀ n ≤ tr.length, ∀ r, cacheRun (tr.take n) = some r →
      0 < r ∧ r = opensCount (tr.take n) - closesCount (tr.take n)) := by
  have hchar : ∀ n ≤ tr.length, cacheRun (tr.take n)
      = if opensCount (tr.take n) = closesCount (tr.take n) then none
        else some (opensCount (tr.take n) - closesCount (tr.take n)) := by
    intro n hn
    apply cacheRun_char
    intro k hk
    have hkn : k ≤ n := by
      have : (tr.take n).length = min n tr.length := List.length_take n tr
      omega
    rw [List.take_take, min_eq_left hkn]
    exact htr k (le_trans hkn hn)
  refine ⟨?_, hchar, ?_⟩
  · rw [runFilterMap_apply, hm]
    exact filterRun_wf evs hwf
  · intro n hn r hr
    rw [hchar n hn] at hr
    by_cases he : opensCount (tr.take n) = closesCount (tr.take n)
    · rw [if_pos he] at hr; cases hr
    · rw [if_neg he] at hr
      have hle := htr n hn
      have : opensCount (tr.take n) - closesCount (tr.take n) = r :=
        Option.some.inj hr
      omega

/-- Witness for C1: two opens of path `p` (filters 1 and 2) followed by
their two closes; cache trace open-open-close-close. -/
theorem C1_cache_invariant_witness :
    (runFilterMap (fun _ => none) "p"
      [FilterEv.create 1, FilterEv.create 2, FilterEv.close 1, FilterEv.close 2]
      "p" = none) ∧
    (∀ n ≤ ([CacheEv.copen, CacheEv.copen, CacheEv.cclose, CacheEv.cclose].length),
      cacheRun ([CacheEv.copen, CacheEv.copen, CacheEv.cclose, CacheEv.cclose].take n)
      = if opensCount ([CacheEv.copen, CacheEv.copen, CacheEv.cclose, CacheEv.cclose].take n)
          = closesCount ([CacheEv.copen, CacheEv.copen, CacheEv.cclose, CacheEv.cclose].take n)
        then none
        else some (opensCount ([CacheEv.copen, CacheEv.copen, CacheEv.cclose, CacheEv.cclose].take n)
          - closesCount ([CacheEv.copen, CacheEv.copen, CacheEv.cclose, CacheEv.cclose].take n))) ∧
    (∀ n ≤ ([CacheEv.copen, CacheEv.copen, CacheEv.cclose, CacheEv.cclose].length),
      ∀ r, cacheRun ([CacheEv.copen, CacheEv.copen, CacheEv.cclose, CacheEv.cclose].take n) = some r →
      0 < r ∧ r = opensCount ([CacheEv.copen, CacheEv.copen, CacheEv.cclose, CacheEv.cclose].take n)
        - closesCount ([CacheEv.copen, CacheEv.copen, CacheEv.cclose, CacheEv.cclose].take n)) :=
  C1_cache_invariant (fun _ => none) "p"
    [FilterEv.create 1, FilterEv.create 2, FilterEv.close 1, FilterEv.close 2]
    rfl (by decide)
    [CacheEv.copen, CacheEv.copen, CacheEv.cclose, CacheEv.cclose]
    (by decide)

/-! ## Helper lemmas for `SndFileFilter::Stat` -/

/-- A single `Stat` call never shrinks the reported size. -/
theorem statStep_mono (T thr st fs fd : ℤ) : st ≤ statStep T thr st fs fd := by
  simp only [statStep]
  split_ifs <;> omega

/-- Before the estimation condition holds, `Stat` leaves the size alone. -/
theorem statStep_untouched (T thr st fs fd : ℤ) (h : ¬(thr < fs ∧ 0 < fd)) :
    statStep T thr st fs fd = st := by
  simp only [statStep]
  split_ifs with h1 h2
  · exact absurd ⟨h1, h2⟩ h
  · rfl
  · rfl
  · rfl

/-- Once the estimation condition holds, `Stat` reports the maximum of
the previous size and the estimate. -/
theorem statStep_max (T thr st fs fd : ℤ) (h1 : thr < fs) (h2 : 0 < fd) :
    statStep T thr st fs fd = max st (T * fs / fd + 16384) := by
  simp only [statStep, if_pos h1, if_pos h2]
  rcases le_or_lt (T * fs / fd + 16384) st with h | h
  · rw [if_neg (by omega), max_eq_left h]
  · rw [if_pos h, max_eq_right h.le]

/-- A run of `Stat` calls never shrinks the reported size. -/
theorem statRun_mono (T thr : ℤ) (calls : List (ℤ × ℤ)) :
    ∀ st : ℤ, st ≤ statRun T thr st calls := by
  induction calls with
  | nil => intro st; exact le_refl st
  | cons c cs ih =>
    intro st
    have h1 := statStep_mono T thr st c.1 c.2
    have h2 := ih (statStep T thr st c.1 c.2)
    calc st ≤ statStep T thr st c.1 c.2 := h1
      _ ≤ statRun T thr (statStep T thr st c.1 c.2) cs := h2
      _ = statRun T thr st (c :: cs) := rfl

/-- While no call satisfies the estimation condition, the original size
is reported unchanged. -/
theorem statRun_untouched (T thr : ℤ) (calls : List (ℤ × ℤ))
    (h : ∀ c ∈ calls, ¬(thr < c.1 ∧ 0 < c.2)) :
    ∀ st : ℤ, statRun T thr st calls = st := by
  induction calls with
  | nil => intro st; rfl
  | cons c cs ih =>
    intro st
    have hc : statStep T thr st c.1 c.2 = st :=
      statStep_untouched T thr st c.1 c.2 (h c (List.mem_cons_self c cs))
    have : statRun T thr st (c :: cs) = statRun T thr (statStep T thr st c.1 c.2) cs := rfl
    rw [this, hc, ih fun x hx => h x (List.mem_cons_of_mem c hx)]

/-- C2: for a `SndFileHandler`, `Stat` reports the original size until
the conversion buffer exceeds the 0.4-threshold with at least one frame
produced; from then on each call computes
`est = total_frames * FileSize() / frames_done + 16384` and updates the
reported size to `max(previous, est)`; hence the reported size is
non-decreasing over the handler's lifetime. -/
theorem C2_stat_size_monotone (T thr st fs fd st0 : ℤ)
    (calls pre post : List (ℤ × ℤ)) :
    (st ≤ statStep T thr st fs fd) ∧
    (¬(thr < fs ∧ 0 < fd) → statStep T thr st fs fd = st) ∧
    (thr < fs → 0 < fd → statStep T thr st fs fd = max st (T * fs / fd + 16384)) ∧
    ((∀ c ∈ calls, ¬(thr < c.1 ∧ 0 < c.2)) → statRun T thr st0 calls = st0) ∧
    (statRun T thr st0 pre ≤ statRun T thr st0 (pre ++ post)) := by
  refine ⟨statStep_mono T thr st fs fd,
    fun h => statStep_untouched T thr st fs fd h,
    fun h1 h2 => statStep_max T thr st fs fd h1 h2,
    fun h => statRun_untouched T thr calls h st0, ?_⟩
  have : statRun T thr st0 (pre ++ post)
      = statRun T thr (statRun T thr st0 pre) post := by
    simp only [statRun, List.foldl_append]
  rw [this]
  exact statRun_mono T thr post (statRun T thr st0 pre)

/-- Witness for C2 at concrete inputs. -/
theorem C2_stat_size_monotone_witness :
    ((50 : ℤ) ≤ statStep 100 10 50 20 2) ∧
    (statStep 100 10 50 5 0 = 50) ∧
    (statStep 100 10 50 20 2 = max 50 (100 * 20 / 2 + 16384)) ∧
    (statRun 100 10 7 [(5, 0)] = 7) ∧
    (statRun 100 10 7 [(20, 2)] ≤ statRun 100 10 7 ([(20, 2)] ++ [(30, 4)])) :=
  ⟨(C2_stat_size_monotone 100 10 50 20 2 7 [] [] []).1,
   (C2_stat_size_monotone 100 10 50 5 0 7 [] [] []).2.1 (by decide),
   (C2_stat_size_monotone 100 10 50 20 2 7 [] [] []).2.2.1 (by decide) (by decide),
   (C2_stat_size_monotone 100 10 50 20 2 7 [(5, 0)] [] []).2.2.2.1 (by decide),
   (C2_stat_size_monotone 100 10 50 20 2 7 [] [(20, 2)] [(30, 4)]).2.2.2.2⟩

/-! ## The read shortcut -/

/-- The signed 32-bit cast is the identity on the `int` range. -/
theorem intCast32_eq_self (x : ℤ) (hlo : -(2 ^ 31) ≤ x) (hhi : x < 2 ^ 31) :
    intCast32 x = x := by
  unfold intCast32
  have h1 : (0 : ℤ) ≤ x + 2 ^ 31 := by omega
  have h2 : x + 2 ^ 31 < 2 ^ 32 := by omega
  rw [Int.emod_eq_of_lt h1 h2]
  ring

/-- The signed 32-bit cast only depends on the value modulo `2^32`. -/
theorem intCast32_congr (x y : ℤ) (h : x % 2 ^ 32 = y % 2 ^ 32) :
    intCast32 x = intCast32 y := by
  unfold intCast32
  have : (x + 2 ^ 31) % 2 ^ 32 = (y + 2 ^ 31) % 2 ^ 32 :=
    Int.ModEq.add_right (2 ^ 31) h
  rw [this]

/-- C3 counterexample: with the reported size outside the signed 32-bit
range, a read whose `offset + size` equals the reported size exactly is
not served by the shortcut (the `(int)` truncation breaks the equality);
the call is delegated to the conversion buffer instead of returning zero
bytes. -/
theorem C3_counterexample :
    sndFileRead false 0 2147483660 4 2147483664
      ≠ ReadOutcome.skip 4 (List.replicate 4 0) := by decide

/-- C3 (amended): on an error-free handler, if `offset` exceeds
`FileSize()`, `offset + size` equals the reported stat size, and the
reported size lies in the signed 32-bit `int` range, then `Read` returns
`size` zero bytes without pulling further audio. -/
theorem C3_read_skip (fileSize offset : ℤ) (size : ℕ) (st_size : ℤ)
    (hoff : fileSize < offset) (hsum : offset + (size : ℤ) = st_size)
    (hlo : -(2 ^ 31) ≤ st_size) (hhi : st_size < 2 ^ 31) :
    sndFileRead false fileSize offset size st_size
      = ReadOutcome.skip size (List.replicate size 0) := by
  unfold sndFileRead
  rw [if_neg (by simp), if_pos]
  exact ⟨hoff, by rw [hsum, intCast32_eq_self st_size hlo hhi]⟩

/-- Witness for C3 at concrete inputs. -/
theorem C3_read_skip_witness :
    sndFileRead false 0 90 10 100 = ReadOutcome.skip 10 (List.replicate 10 0) :=
  C3_read_skip 0 90 10 100 (by decide) (by decide) (by decide) (by decide)

/-- C10 counterexample: congruence of `offset + size` with the reported
size modulo `2^32` does not suffice to trigger the shortcut when the
reported size lies outside the signed 32-bit range (here they are even
exactly equal, at `2^31`). -/
theorem C10_counterexample :
    sndFileRead false 0 2147483640 8 2147483648
      ≠ ReadOutcome.skip 8 (List.replicate 8 0) := by decide

/-- C10 (amended): the skip condition truncates `offset + size` to a
signed 32-bit `int`; on an error-free handler with `offset > FileSize()`,
the shortcut triggers whenever `offset + size` is congruent to the
reported size modulo `2^32` — not only when exactly equal — provided the
reported size itself lies in the signed 32-bit range. -/
theorem C10_read_skip_mod (fileSize offset : ℤ) (size : ℕ) (st_size : ℤ)
    (hoff : fileSize < offset)
    (hsum : (offset + (size : ℤ)) % 2 ^ 32 = st_size % 2 ^ 32)
    (hlo : -(2 ^ 31) ≤ st_size) (hhi : st_size < 2 ^ 31) :
    sndFileRead false fileSize offset size st_size
      = ReadOutcome.skip size (List.replicate size 0) := by
  unfold sndFileRead
  rw [if_neg (by simp), if_pos]
  refine ⟨hoff, ?_⟩
  rw [intCast32_congr (offset + (size : ℤ)) st_size hsum,
    intCast32_eq_self st_size hlo hhi]

/-- Witness for C10 at concrete inputs where `offset + size` differs
from the reported size by exactly `2^32`. -/
theorem C10_read_skip_mod_witness :
    sndFileRead false 0 4294967306 90 100
      = ReadOutcome.skip 90 (List.replicate 90 0) :=
  C10_read_skip_mod 0 4294967306 90 100 (by decide) (by decide)
    (by decide) (by decide)

/-! ## FLAC header splicing -/

/-- The header of a metadata block is 4 bytes long. -/
theorem headerBytes_length (b : MetaBlock) : (headerBytes b).length = 4 := rfl

/-- Serialization distributes over chain concatenation. -/
theorem serializeBlocks_append (l₁ l₂ : List MetaBlock) :
    serializeBlocks (l₁ ++ l₂) = serializeBlocks l₁ ++ serializeBlocks l₂ := by
  induction l₁ with
  | nil => rfl
  | cons b t ih => simp [serializeBlocks, ih, List.append_assoc]

/-- Splicing distributes over chain concatenation. -/
theorem spliceChain_append (l₁ l₂ : List MetaBlock) :
    spliceChain (l₁ ++ l₂) = spliceChain l₁ ++ spliceChain l₂ := by
  induction l₁ with
  | nil => rfl
  | cons b t ih => simp [spliceChain, ih, List.append_assoc]

/-- A chain serializes to at least one byte per block. -/
theorem serializeBlocks_length_ge (bs : List MetaBlock) :
    bs.length ≤ (serializeBlocks bs).length := by
  induction bs with
  | nil => simp [serializeBlocks]
  | cons b t ih =>
    simp only [serializeBlocks, List.length_append, List.length_cons,
      serializeBlock, headerBytes]
    simp only [List.length_append, List.length_cons, List.length_nil]
    omega

/-- In a well-formed chain, a block carrying the last flag closes it. -/
theorem lastFlagsOk_cons_true (b : MetaBlock) (rest : List MetaBlock)
    (h : lastFlagsOk (b :: rest) = true) (hb : b.last = true) : rest = [] := by
  cases rest with
  | nil => rfl
  | cons c t => simp [lastFlagsOk, hb] at h

/-- In a well-formed chain, after a non-last block the tail is again a
well-formed chain. -/
theorem lastFlagsOk_cons_false (b : MetaBlock) (rest : List MetaBlock)
    (h : lastFlagsOk (b :: rest) = true) (hb : b.last = false) :
    lastFlagsOk rest = true := by
  cases rest with
  | nil => simp [lastFlagsOk, hb] at h
  | cons c t => simpa [lastFlagsOk, hb] using h

/-- In a well-formed chain, the final block carries the last flag. -/
theorem lastFlagsOk_concat (init : List MetaBlock) (fin : MetaBlock)
    (h : lastFlagsOk (init ++ [fin]) = true) : fin.last = true := by
  induction init with
  | nil => simpa [lastFlagsOk] using h
  | cons a t ih =>
    apply ih
    cases h2 : a.last with
    | false => exact lastFlagsOk_cons_false a (t ++ [fin]) h h2
    | true =>
      have h3 := lastFlagsOk_cons_true a (t ++ [fin]) h h2
      exact absurd h3 (by simp)

/-- The splice of one block never yields a SEEKTABLE. -/
theorem spliceBlock_no_seektable (b : MetaBlock) :
    ∀ x ∈ spliceBlock b, x.btype ≠ 3 := by
  intro x hx
  unfold spliceBlock at hx
  split_ifs at hx with h1 h2 h3
  · rw [List.mem_singleton.mp hx]
    simp only
    rw [h1.1]
    omega
  · rw [List.mem_singleton.mp hx]
    simp [padBlock]
  · cases hx
  · rw [List.mem_singleton.mp hx]
    exact h2

/-- The splice of a non-last block yields only non-last blocks. -/
theorem spliceBlock_last_false (b : MetaBlock) (hb : b.last = false) :
    ∀ x ∈ spliceBlock b, x.last = false := by
  intro x hx
  unfold spliceBlock at hx
  by_cases h1 : b.btype = 0 ∧ b.payload.length = 34
  · rw [if_pos h1] at hx
    rw [List.mem_singleton.mp hx]; exact hb
  · rw [if_neg h1] at hx
    by_cases h2 : b.btype = 3
    · rw [if_pos h2, hb] at hx
      simp at hx
    · rw [if_neg h2] at hx
      rw [List.mem_singleton.mp hx]; exact hb

/-- The splice of a last block emits exactly one last-flagged block. -/
theorem spliceBlock_countP_last (b : MetaBlock) (hb : b.last = true) :
    (spliceBlock b).countP (fun x => x.last) = 1 := by
  unfold spliceBlock
  by_cases h1 : b.btype = 0 ∧ b.payload.length = 34
  · rw [if_pos h1]; simp [List.countP_cons, hb]
  · rw [if_neg h1]
    by_cases h2 : b.btype = 3
    · rw [if_pos h2, if_pos hb]
      simp [List.countP_cons, padBlock]
    · rw [if_neg h2]; simp [List.countP_cons, hb]

/-- The spliced chain of a well-formed chain carries exactly one last
flag. -/
theorem spliceChain_countP_last (bs : List MetaBlock)
    (h : lastFlagsOk bs = true) :
    (spliceChain bs).countP (fun x => x.last) = 1 := by
  induction bs with
  | nil => simp [lastFlagsOk] at h
  | cons b rest ih =>
    cases hb : b.last with
    | true =>
      have hrest := lastFlagsOk_cons_true b rest h hb
      subst hrest
      have : spliceChain [b] = spliceBlock b ++ [] := rfl
      rw [this, List.append_nil]
      exact spliceBlock_countP_last b hb
    | false =>
      have hrest := lastFlagsOk_cons_false b rest h hb
      have hchain : spliceChain (b :: rest) = spliceBlock b ++ spliceChain rest := rfl
      rw [hchain, List.countP_append, ih hrest]
      have : (spliceBlock b).countP (fun x => x.last) = 0 := by
        rw [List.countP_eq_zero]
        intro x hx
        simp [spliceBlock_last_false b hb x hx]
      omega

/-- No SEEKTABLE survives splicing. -/
theorem spliceChain_no_seektable (bs : List MetaBlock) :
    ∀ x ∈ spliceChain bs, x.btype ≠ 3 := by
  induction bs with
  | nil => intro x hx; cases hx
  | cons b rest ih =>
    intro x hx
    have : spliceChain (b :: rest) = spliceBlock b ++ spliceChain rest := rfl
    rw [this] at hx
    rcases List.mem_append.mp hx with h | h
    · exact spliceBlock_no_seektable b x h
    · exact ih x h

/-- Correspondence between the byte-level loop of `CopyFlacHeader` and
the block-level splice: on a serialized well-formed chain, the loop
emits exactly the serialization of the spliced chain. -/
theorem flacBlocksF_spec (bs : List MetaBlock) :
    ∀ (fuel pos : ℕ) (pre suffix file : List ℕ),
      file = pre ++ serializeBlocks bs ++ suffix → pos = pre.length →
      (∀ b ∈ bs, b.btype < 128 ∧ b.payload.length < 16777216) →
      lastFlagsOk bs = true → bs.length ≤ fuel →
      flacBlocksF file fuel pos = serializeBlocks (spliceChain bs) := by
  induction bs with
  | nil =>
    intro fuel pos pre suffix file _ _ _ hl _
    simp [lastFlagsOk] at hl
  | cons b rest ih =>
    intro fuel pos pre suffix file hfile hpos hb hl hfuel
    obtain ⟨hbtype, hplen⟩ := hb b (List.mem_cons_self b rest)
    cases fuel with
    | zero => simp at hfuel
    | succ f =>
    have hhb4 : (headerBytes b).length = 4 := rfl
    have hsb : serializeBlocks (b :: rest)
        = (headerBytes b ++ b.payload) ++ serializeBlocks rest := rfl
    have hfile2 : file
        = (pre ++ headerBytes b) ++ (b.payload ++ (serializeBlocks rest ++ suffix)) := by
      rw [hfile, hsb]; simp [List.append_assoc]
    have hlenfile : pos + 4 ≤ file.length := by
      rw [hfile2, hpos]
      simp [List.length_append, hhb4]
    have hdrop4 : file.drop (pos + 4) = b.payload ++ (serializeBlocks rest ++ suffix) := by
      rw [hfile2]
      exact List.drop_left' (by rw [List.length_append, hhb4, hpos])
    have hdrop0 : file.drop pos
        = headerBytes b ++ (b.payload ++ (serializeBlocks rest ++ suffix)) := by
      rw [hfile2, List.append_assoc]
      exact List.drop_left' hpos.symm
    have hhdr : (file.drop pos).take 4 = headerBytes b := by
      rw [hdrop0]
      exact List.take_left' hhb4
    conv_lhs => simp only [flacBlocksF]
    rw [if_pos hlenfile, hhdr]
    simp only [headerBytes, List.getD_cons_zero, List.getD_cons_succ]
    have hbl : b.payload.length / 65536 * 65536 + b.payload.length / 256 % 256 * 256
        + b.payload.length % 256 = b.payload.length := by omega
    rw [hbl]
    by_cases hlast : b.last = true
    · have hrest := lastFlagsOk_cons_true b rest hl hlast
      subst hrest
      have h0eq : (if b.last = true then (128 : ℕ) else 0) = 128 := if_pos hlast
      simp only [h0eq]
      have hmod : (128 + b.btype) % 128 = b.btype := by omega
      rw [hmod, if_pos (by omega : 128 ≤ 128 + b.btype)]
      have hchain : spliceChain [b] = spliceBlock b := by
        simp [spliceChain]
      rw [hchain]
      by_cases h1 : b.btype = 0 ∧ b.payload.length = 34
      · rw [if_pos h1, if_neg (by omega : ¬ b.btype = 3)]
        rw [hdrop4, h1.2]
        rw [List.take_append_of_le_length (by rw [h1.2]; omega)]
        have hsp : spliceBlock b
            = [{ b with payload := b.payload.take 18 ++ List.replicate 16 0 }] := by
          simp [spliceBlock, h1.1, h1.2]
        rw [hsp]
        have hlen' : (b.payload.take 18 ++ List.replicate 16 0).length = 34 := by
          simp [List.length_take, h1.2]
        simp [serializeBlocks, serializeBlock, headerBytes, hlen', h1.2, hlast,
          List.append_assoc]
      · rw [if_neg h1]
        by_cases h2 : b.btype = 3
        · rw [if_pos h2, if_pos h2]
          have hsp : spliceBlock b = [padBlock] := by
            simp [spliceBlock, h1, h2, hlast]
          rw [hsp]
          simp [serializeBlocks, serializeBlock, headerBytes, padBlock]
        · rw [if_neg h2, if_neg h2]
          rw [hdrop4, List.take_left' rfl]
          have hsp : spliceBlock b = [b] := by
            simp [spliceBlock, h1, h2]
          rw [hsp]
          simp [serializeBlocks, serializeBlock, headerBytes, hlast,
            List.append_assoc]
    · have hlastf : b.last = false := by
        revert hlast
        cases b.last <;> simp
      have hlrest := lastFlagsOk_cons_false b rest hl hlastf
      have h0eq : (if b.last = true then (128 : ℕ) else 0) = 0 := if_neg hlast
      simp only [h0eq, Nat.zero_add]
      have hmod : b.btype % 128 = b.btype := Nat.mod_eq_of_lt hbtype
      rw [hmod, if_neg (by omega : ¬ 128 ≤ b.btype)]
      have hrec : flacBlocksF file f (pos + 4 + b.payload.length)
          = serializeBlocks (spliceChain rest) := by
        refine ih f (pos + 4 + b.payload.length) (pre ++ serializeBlock b) suffix file
          ?_ ?_ (fun x hx => hb x (List.mem_cons_of_mem b hx)) hlrest (by simp at hfuel ⊢; omega)
        · rw [hfile, hsb]
          simp [serializeBlock, List.append_assoc]
        · rw [List.length_append, hpos]
          simp [serializeBlock, headerBytes]
          omega
      have hchain : spliceChain (b :: rest) = spliceBlock b ++ spliceChain rest := rfl
      rw [hchain, serializeBlocks_append]
      by_cases h1 : b.btype = 0 ∧ b.payload.length = 34
      · rw [if_pos h1, hdrop4, hrec]
        rw [List.take_append_of_le_length
          (by omega : b.payload.length - 16 ≤ b.payload.length)]
        have h18 : b.payload.length - 16 = 18 := by omega
        rw [h18]
        have hsp : spliceBlock b
            = [{ b with payload := b.payload.take 18 ++ List.replicate 16 0 }] := by
          simp [spliceBlock, h1.1, h1.2]
        rw [hsp]
        have hlen' : (b.payload.take 18 ++ List.replicate 16 0).length = 34 := by
          simp [List.length_take, h1.2]
        simp [serializeBlocks, serializeBlock, headerBytes, hlen', h1.2, hlastf,
          List.append_assoc]
      · rw [if_neg h1]
        by_cases h2 : b.btype = 3
        · rw [if_pos h2]
          have hsp : spliceBlock b = [] := by
            simp [spliceBlock, h1, h2, hlastf]
          rw [hsp, hrec]
          simp [serializeBlocks]
        · rw [if_neg h2]
          rw [hdrop4, List.take_left' rfl, hrec]
          have hsp : spliceBlock b = [b] := by
            simp [spliceBlock, h1, h2]
          rw [hsp]
          simp [serializeBlocks, serializeBlock, headerBytes, hlastf,
            List.append_assoc]

/-- C4: for a FLAC input whose chain starts with the mandatory 34-byte
STREAMINFO block, the produced output begins with the four bytes `fLaC`,
and the output STREAMINFO block is the block's 4 original header bytes,
the first 18 payload bytes copied from the original, and 16 zero bytes
in place of the MD5 signature. -/
theorem C4_streaminfo_md5 (b : MetaBlock) (rest : List MetaBlock)
    (pre suffix : List ℕ) (hpre : pre.length = 4)
    (hb : ∀ x ∈ b :: rest, x.btype < 128 ∧ x.payload.length < 16777216)
    (hl : lastFlagsOk (b :: rest) = true)
    (ht : b.btype = 0) (hlen : b.payload.length = 34) :
    ∃ tail, copyFlacHeader (pre ++ serializeBlocks (b :: rest) ++ suffix)
      = [102, 76, 97, 67] ++ (headerBytes b
        ++ (b.payload.take 18 ++ List.replicate 16 0)) ++ tail := by
  refine ⟨serializeBlocks (spliceChain rest), ?_⟩
  unfold copyFlacHeader
  rw [flacBlocksF_spec (b :: rest) _ 4 pre suffix _ rfl hpre.symm hb hl ?_]
  · have hchain : spliceChain (b :: rest) = spliceBlock b ++ spliceChain rest := rfl
    rw [hchain, serializeBlocks_append]
    have hsp : spliceBlock b
        = [{ b with payload := b.payload.take 18 ++ List.replicate 16 0 }] := by
      simp [spliceBlock, ht, hlen]
    rw [hsp]
    have hL : (b.payload.take 18 ++ List.replicate 16 0).length = b.payload.length := by
      rw [List.length_append, List.length_take, List.length_replicate, hlen]
      omega
    have hhb : headerBytes { b with payload := b.payload.take 18 ++ List.replicate 16 0 }
        = headerBytes b := by
      simp only [headerBytes]
      rw [hL]
    simp only [serializeBlocks, serializeBlock, hhb, List.append_nil, List.append_assoc]
  · have hg := serializeBlocks_length_ge (b :: rest)
    simp only [List.length_append]
    omega

/-- Witness for C4: a single last-flagged STREAMINFO block with payload
bytes 7. -/
theorem C4_streaminfo_md5_witness :
    ∃ tail, copyFlacHeader ([1, 2, 3, 4]
        ++ serializeBlocks [⟨true, 0, List.replicate 34 7⟩] ++ [])
      = [102, 76, 97, 67] ++ (headerBytes ⟨true, 0, List.replicate 34 7⟩
        ++ ((List.replicate 34 7).take 18 ++ List.replicate 16 0)) ++ tail :=
  C4_streaminfo_md5 ⟨true, 0, List.replicate 34 7⟩ [] [1, 2, 3, 4] []
    (by decide) (by decide) (by decide) (by decide) (by decide)

/-- C5: splicing a well-formed FLAC metadata chain yields the spliced
output exactly; no SEEKTABLE (type 3) block survives in the output
chain; exactly one output block carries the last-block flag; and a
chain whose dropped SEEKTABLE was the last block gets a trailing empty
PADDING block (type 1) with the last-block flag appended. -/
theorem C5_seektable_dropped (bs : List MetaBlock) (pre suffix : List ℕ)
    (hpre : pre.length = 4)
    (hb : ∀ x ∈ bs, x.btype < 128 ∧ x.payload.length < 16777216)
    (hl : lastFlagsOk bs = true) :
    (copyFlacHeader (pre ++ serializeBlocks bs ++ suffix)
      = [102, 76, 97, 67] ++ serializeBlocks (spliceChain bs)) ∧
    (∀ x ∈ spliceChain bs, x.btype ≠ 3) ∧
    ((spliceChain bs).countP (fun x => x.last) = 1) ∧
    (padBlock.last = true ∧ padBlock.btype = 1 ∧ padBlock.payload = []) ∧
    (∀ init fin, bs = init ++ [fin] → fin.btype = 3 →
      spliceChain bs = spliceChain init ++ [padBlock]) := by
  refine ⟨?_, spliceChain_no_seektable bs, spliceChain_countP_last bs hl,
    ⟨rfl, rfl, rfl⟩, ?_⟩
  · unfold copyFlacHeader
    rw [flacBlocksF_spec bs _ 4 pre suffix _ rfl hpre.symm hb hl ?_]
    have hg := serializeBlocks_length_ge bs
    simp only [List.length_append]
    omega
  · intro init fin heq h3
    have hfin : fin.last = true := lastFlagsOk_concat init fin (heq ▸ hl)
    rw [heq, spliceChain_append]
    have : spliceChain [fin] = spliceBlock fin := by simp [spliceChain]
    rw [this]
    have hsp : spliceBlock fin = [padBlock] := by
      simp [spliceBlock, h3, hfin]
    rw [hsp]

/-- Witness for C5: STREAMINFO then a last-flagged SEEKTABLE. -/
theorem C5_seektable_dropped_witness :
    (copyFlacHeader ([9, 9, 9, 9]
        ++ serializeBlocks [⟨false, 0, List.replicate 34 5⟩, ⟨true, 3, [1, 2, 3]⟩] ++ [8, 8])
      = [102, 76, 97, 67] ++ serializeBlocks
          (spliceChain [⟨false, 0, List.replicate 34 5⟩, ⟨true, 3, [1, 2, 3]⟩])) ∧
    (∀ x ∈ spliceChain [⟨false, 0, List.replicate 34 5⟩, (⟨true, 3, [1, 2, 3]⟩ : MetaBlock)],
      x.btype ≠ 3) ∧
    ((spliceChain [⟨false, 0, List.replicate 34 5⟩,
        (⟨true, 3, [1, 2, 3]⟩ : MetaBlock)]).countP (fun x => x.last) = 1) ∧
    (padBlock.last = true ∧ padBlock.btype = 1 ∧ padBlock.payload = []) ∧
    (∀ init fin,
      [⟨false, 0, List.replicate 34 5⟩, (⟨true, 3, [1, 2, 3]⟩ : MetaBlock)] = init ++ [fin] →
      fin.btype = 3 →
      spliceChain [⟨false, 0, List.replicate 34 5⟩, (⟨true, 3, [1, 2, 3]⟩ : MetaBlock)]
        = spliceChain init ++ [padBlock]) :=
  C5_seektable_dropped [⟨false, 0, List.replicate 34 5⟩, ⟨true, 3, [1, 2, 3]⟩]
    [9, 9, 9, 9] [8, 8] (by decide) (by decide) (by decide)

/-! ## Pass-through handler error codes -/

/-- C9 counterexample: a failing `fstat` (returning `-1` with
`errno = EBADF = 9`) is passed through as `-1` by
`PassThroughFilter::Stat`, not as the negated errno `-9`. -/
theorem C9_counterexample : ptStat (-1) ≠ -9 := by decide

/-- C9 (amended): `PassThroughFilter::Read` and `Close` return the
negated errno of a failing descriptor operation and the non-negative
result on success, but `Stat` returns the raw `fstat` result unchanged
(`-1` on failure, `0` on success), not the negated errno. -/
theorem C9_passthrough_errors (r e c : ℤ) :
    (r = -1 → ptRead r e = -e) ∧
    (r ≠ -1 → ptRead r e = r) ∧
    (ptStat r = r) ∧
    (c = -1 → ptClose c e = -e) ∧
    (c ≠ -1 → ptClose c e = 0) := by
  refine ⟨fun h => ?_, fun h => ?_, rfl, fun h => ?_, fun h => ?_⟩
  · simp [ptRead, h]
  · simp [ptRead, h]
  · simp [ptClose, h]
  · simp [ptClose, h]

/-- Witness for C9 at concrete inputs. -/
theorem C9_passthrough_errors_witness :
    (ptRead (-1) 9 = -9) ∧ (ptRead 5 9 = 5) ∧ (ptStat (-1) = -1) ∧
    (ptClose (-1) 13 = -13) ∧ (ptClose 0 13 = 0) :=
  ⟨(C9_passthrough_errors (-1) 9 0).1 rfl,
   (C9_passthrough_errors 5 9 0).2.1 (by decide),
   (C9_passthrough_errors (-1) 9 0).2.2.1,
   (C9_passthrough_errors 5 13 (-1)).2.2.2.1 rfl,
   (C9_passthrough_errors 5 13 0).2.2.2.2 (by decide)⟩

/-! ## Peak observation -/

/-- C6: the claim fails on the code.  `SoundProcessor::Process` compares
the raw signed sample against the maximum (`out_abs` is assigned
`source[j]` without taking the absolute value), so a negative output
sample never raises `max_out_value_observed_`: after processing the
single output sample `-2`, the observed maximum is still `0`, strictly
below the absolute sample value `2`. -/
theorem C6_peak_misses_negative_samples :
    observePeak [(-2 : ℚ)] 0 = 0 ∧ ¬(|(-2 : ℚ)| ≤ observePeak [(-2 : ℚ)] 0) := by
  constructor
  · simp [observePeak]
  · simp [observePeak]
    norm_num

/-! ## Output format selection -/

/-- C7: the output format handed to the `ConversionBuffer` is FLAC with
16-bit PCM for OGG input, WAV with host-endian float for WAV input whose
subtype is not PCM-16, and exactly the input format otherwise (including
WAV PCM-16 and FLAC). -/
theorem C7_output_format (f : ℕ) :
    (f &&& SF_FORMAT_TYPEMASK = SF_FORMAT_OGG →
      chooseOutputFormat f = SF_FORMAT_FLAC ||| SF_FORMAT_PCM_16) ∧
    (f &&& SF_FORMAT_TYPEMASK = SF_FORMAT_WAV →
      f &&& SF_FORMAT_SUBMASK ≠ SF_FORMAT_PCM_16 →
      chooseOutputFormat f = SF_FORMAT_WAV ||| SF_FORMAT_FLOAT ||| SF_ENDIAN_CPU) ∧
    (f &&& SF_FORMAT_TYPEMASK ≠ SF_FORMAT_OGG →
      (f &&& SF_FORMAT_TYPEMASK = SF_FORMAT_WAV →
        f &&& SF_FORMAT_SUBMASK = SF_FORMAT_PCM_16) →
      chooseOutputFormat f = f) := by
  refine ⟨fun h => ?_, fun h1 h2 => ?_, fun h1 h2 => ?_⟩
  · simp [chooseOutputFormat, h]
  · unfold chooseOutputFormat
    rw [if_neg (by rw [h1]; decide), if_pos ⟨h1, h2⟩]
  · unfold chooseOutputFormat
    rw [if_neg h1, if_neg]
    intro hc
    exact hc.2 (h2 hc.1)

/-- Witness for C7 at one concrete format of each kind: OGG Vorbis,
WAV float, FLAC PCM-16. -/
theorem C7_output_format_witness :
    (chooseOutputFormat 0x200060 = SF_FORMAT_FLAC ||| SF_FORMAT_PCM_16) ∧
    (chooseOutputFormat 0x010006 = SF_FORMAT_WAV ||| SF_FORMAT_FLOAT ||| SF_ENDIAN_CPU) ∧
    (chooseOutputFormat 0x170002 = 0x170002) :=
  ⟨(C7_output_format 0x200060).1 (by decide),
   (C7_output_format 0x010006).2.1 (by decide) (by decide),
   (C7_output_format 0x170002).2.2 (by decide) (by decide)⟩

/-! ## FLAC-path header flushing -/

/-- C8: in the FLAC path of `SetOutputSoundfile`, after the spliced
header is copied in, the encoder's own header flush is dropped by the
disabled write gate, writes end up enabled and `HeaderFinished` is
marked at the end of the spliced header; hence whatever the encoder
emits afterwards (the audio payload) follows the spliced header
directly, with no encoder-generated header bytes in between. -/
theorem C8_flac_header_flush (b : ConvBuffer) (spliced encoder_header audio : List ℕ) :
    ((setOutputSoundfileFlac b spliced encoder_header).buffer = b.buffer ++ spliced) ∧
    ((setOutputSoundfileFlac b spliced encoder_header).sndfile_writes_enabled = true) ∧
    ((setOutputSoundfileFlac b spliced encoder_header).header_end
      = some (b.buffer ++ spliced).length) ∧
    ((sndfileWriteCallback (setOutputSoundfileFlac b spliced encoder_header) audio).buffer
      = (b.buffer ++ spliced) ++ audio) := by
  refine ⟨?_, ?_, ?_, ?_⟩ <;>
    simp [setOutputSoundfileFlac, headerFinished, setWritesEnabled,
      sndfileWriteCallback, bufAppend]

end Folve
